import Mathlib

set_option autoImplicit false
set_option maxRecDepth 10000

namespace SkynetAccounts

/-!
Verification of skynet-accounts against its specification.

The development shallowly embeds the relevant Go code:
pure functions become Lean functions, the concurrent email sender
becomes a labelled transition system over an explicit global state.
-/

/-! ## database/apikeys.go -/

/-- Embeds the fields of `APIKeyRecord` (database/apikeys.go) that
`CoversSkylink` reads: the `Public` flag and the `Skylinks` list. -/
structure APIKeyRecord where
  public : Bool
  skylinks : List String
deriving DecidableEq

/-- Embeds the `for _, s := range akr.Skylinks` loop inside
`CoversSkylink`: returns true as soon as an element equals `sl`. -/
def containsString : List String → String → Bool
  | [], _ => false
  | s :: rest, sl => if s == sl then true else containsString rest sl

/-- Embeds `APIKeyRecord.CoversSkylink` (database/apikeys.go lines 77-87):
if the key is public it covers everything, otherwise scan the skylinks list. -/
def CoversSkylink (akr : APIKeyRecord) (sl : String) : Bool :=
  if akr.public then true
  else containsString akr.skylinks sl

/-! ## User.SetPassword (database/user.go variant in src/unnamed/part_001) -/

/-- Embeds the fields of `User` that `SetPassword` touches. Byte slices are
modelled as lists of naturals. `depDisrupt` records whether
`u.dep != nil && u.dep.Disrupt("DependencyHashPassword")` holds. -/
structure User where
  password : List Nat
  salt : List Nat
  depDisrupt : Bool
deriving DecidableEq

/-- Embeds `User.SetPassword` (src/unnamed/part_001 lines 83-100).
The random salt drawn by `fastrand.Bytes` and the outcome of
`bcrypt.GenerateFromPassword` are passed in as parameters.  The function
first overwrites `u.Salt` with the fresh salt, then composes the bcrypt
error with the disruption error; the deferred handler restores the old
salt whenever the returned error is non-nil, and only on the error-free
path is `u.Password` overwritten with the new hash. -/
def SetPassword (u : User) (newSalt : List Nat)
    (bcryptRes : Except String (List Nat)) : Option String × User :=
  let u1 : User := { u with salt := newSalt }
  match bcryptRes, u.depDisrupt with
  | Except.error e, true =>
      (some (e ++ "; DependencyHashPassword"), { u1 with salt := u.salt })
  | Except.error e, false => (some e, { u1 with salt := u.salt })
  | Except.ok _, true => (some "DependencyHashPassword", { u1 with salt := u.salt })
  | Except.ok pwHash, false => (none, { u1 with password := pwHash })

/-! ## monthStart (database/user.go, two versions) -/

/-- Embeds Go's leap-year rule used by `time.Date` normalization. -/
def isLeap (y : Int) : Bool := y % 4 == 0 && (y % 100 != 0 || y % 400 == 0)

/-- Cumulative day counts before each month in a non-leap year,
as in Go's `daysBefore` table. -/
def daysBeforeMonth : Nat → Int
  | 1 => 0
  | 2 => 31
  | 3 => 59
  | 4 => 90
  | 5 => 120
  | 6 => 151
  | 7 => 181
  | 8 => 212
  | 9 => 243
  | 10 => 273
  | 11 => 304
  | 12 => 334
  | _ => 0

/-- Days in the proleptic Gregorian calendar before January 1 of year `y`,
measured from a fixed affine origin. -/
def daysBeforeYear (y : Int) : Int :=
  365 * (y - 1) + (y - 1).fdiv 4 - (y - 1).fdiv 100 + (y - 1).fdiv 400

/-- Embeds Go's `time.Date(y, m, d, 0, 0, 0, 0, time.UTC)` as an absolute
civil-day index: the month is normalized into 1..12 with floored division
(adjusting the year), then the day offset is added linearly, exactly as
`time.Date` computes its absolute epoch day.  Two `time.Date` results with
zeroed clock are equal iff their indices are equal. -/
def goDate (y m d : Int) : Int :=
  let m0 := m - 1
  let q := m0.fdiv 12
  let y1 := y + q
  let m1 := (m0 - 12 * q).toNat + 1
  daysBeforeYear y1 + daysBeforeMonth m1 +
    (if isLeap y1 = true ∧ 3 ≤ m1 then 1 else 0) + (d - 1)

/-- A normalized civil date, standing for the `time.Now().UTC()` value that
both `monthStart` versions read. -/
structure GoDate where
  year : Int
  month : Int
  day : Int
deriving DecidableEq

/-- Embeds the first `monthStart` (database/user.go lines 460-472):
unconditionally `now.AddDate(0, -1, daysDelta)`, then truncate to midnight.
The result is represented as the absolute civil-day index of the returned
date.  `subDay` is `subscribedUntil.Day()`, the only part of
`subscribedUntil` the function reads. -/
def monthStartV1 (now : GoDate) (subDay : Int) : Int :=
  let daysDelta := subDay - now.day
  goDate now.year (now.month - 1) (now.day + daysDelta)

/-- Embeds the second `monthStart` (database/user.go lines 1285-1303):
`monthsDelta` is `-1` only when `daysDelta > 0`, otherwise `0`. -/
def monthStartV2 (now : GoDate) (subDay : Int) : Int :=
  let daysDelta := subDay - now.day
  let monthsDelta : Int := if daysDelta > 0 then -1 else 0
  goDate now.year (now.month + monthsDelta) (now.day + daysDelta)

/-! ## Email delivery queue

The email subsystem itself (`email.Sender`, `ScanAndSend`, the claim
query) is not among the provided sources; only its test harness
(src/unnamed/part_000) is.  The queue is therefore modelled from the
specification, with the test file supplying the concrete scenario and the
sender-loop bookkeeping. -/

/-- Modelled from the spec: the Message Record of §3 (the email subsystem's
record type is missing from the sources).  Timestamps are naturals and
`none` stands for the unset/zero value. -/
structure Msg where
  recipient : String
  subject : String
  body : String
  createdAt : Nat
  sentAt : Option Nat
  failedAttempts : Nat
  lockedBy : Option Nat
  lockedAt : Option Nat
deriving DecidableEq

/-- Modelled from the spec: the configuration of §6 (poll interval is
irrelevant to the claims).  `now` is the single current time of a run: the
model does not advance the clock, so locks taken during the run never go
stale; the staleness clause only fires for locks present before the run,
which is its crash-recovery role in §5. -/
structure Config where
  batchSize : Nat
  maxAttempts : Nat
  staleLockThreshold : Nat
  now : Nat
deriving DecidableEq

/-- Modelled from the spec: a lock is stale when `lockedAt` is older than
the stale-lock threshold (§4.1). -/
def staleLock (cfg : Config) : Option Nat → Bool
  | none => false
  | some t => decide (t + cfg.staleLockThreshold < cfg.now)

/-- Modelled from the spec: the eligibility predicate of §4.1 — `sentAt`
unset, `failedAttempts < maxAttempts`, and `lockedBy` unset or the lock
stale. -/
def eligible (cfg : Config) (m : Msg) : Bool :=
  m.sentAt == none && decide (m.failedAttempts < cfg.maxAttempts) &&
    (m.lockedBy == none || staleLock cfg m.lockedAt)

/-- Modelled from the spec: the conditional claim update of §4.1 writes
`lockedBy = workerID` and `lockedAt = now`. -/
def lockMsg (w : Nat) (now : Nat) (m : Msg) : Msg :=
  { m with lockedBy := some w, lockedAt := some now }

/-- Modelled from the spec: the success write-back of §4.2 step 3 sets
`sentAt = now` and clears the lock fields. -/
def markSent (now : Nat) (m : Msg) : Msg :=
  { m with sentAt := some now, lockedBy := none, lockedAt := none }

/-- Modelled from the spec: the failure write-back of §4.2 step 4
increments `failedAttempts` and clears the lock fields. -/
def markFailed (m : Msg) : Msg :=
  { m with failedAttempts := m.failedAttempts + 1,
           lockedBy := none, lockedAt := none }

/-- Modelled from the spec: the scan-and-claim pass of `ClaimBatch`
(§4.1), walking the store in order with a claim budget, locking each
eligible record and collecting its identifier (its index, playing the role
of the store-assigned id).  `i` is the index of the head of the remaining
store. -/
def claimBatchAux (cfg : Config) (w : Nat) :
    Nat → Nat → List Msg → List Msg × List Nat
  | _, _, [] => ([], [])
  | budget, i, m :: rest =>
    if 0 < budget ∧ eligible cfg m = true then
      let p := claimBatchAux cfg w (budget - 1) (i + 1) rest
      (lockMsg w cfg.now m :: p.1, i :: p.2)
    else
      let p := claimBatchAux cfg w budget (i + 1) rest
      (m :: p.1, p.2)

/-- Modelled from the spec: `ClaimBatch(workerID, batchSize,
staleLockThreshold)` of §4.1, returning the updated store together with
the identifiers of the records this worker's updates actually modified. -/
def ClaimBatch (cfg : Config) (w : Nat) (store : List Msg) :
    List Msg × List Nat :=
  claimBatchAux cfg w cfg.batchSize 0 store

/-- Modelled from the spec: the delivery phase of `RunCycle` (§4.2 steps
2-4): for each claimed identifier invoke the transport `tr` and write the
outcome back; returns the updated store and the (success, failure)
counts. -/
def sendAll (cfg : Config) (tr : Msg → Bool) :
    List Nat → List Msg → List Msg × Nat × Nat
  | [], store => (store, 0, 0)
  | i :: ids, store =>
    match store[i]? with
    | none => sendAll cfg tr ids store
    | some m =>
      if tr m then
        let p := sendAll cfg tr ids (store.set i (markSent cfg.now m))
        (p.1, p.2.1 + 1, p.2.2)
      else
        let p := sendAll cfg tr ids (store.set i (markFailed m))
        (p.1, p.2.1, p.2.2 + 1)

/-- Modelled from the spec: one delivery cycle (`ScanAndSend` /
`RunCycle`, §4.2): claim a batch, deliver it, aggregate the counts. -/
def ScanAndSend (cfg : Config) (w : Nat) (tr : Msg → Bool)
    (store : List Msg) : (Nat × Nat) × List Msg :=
  let c := ClaimBatch cfg w store
  let s := sendAll cfg tr c.2 c.1
  ((s.2.1, s.2.2), s.1)

/-! ## Theorems for the database-layer claims -/

/-- Helper: the scanning loop of `CoversSkylink` decides list membership. -/
theorem containsString_eq_true_iff_mem (l : List String) (sl : String) :
    containsString l sl = true ↔ sl ∈ l := by
  induction l with
  | nil => simp [containsString]
  | cons s rest ih =>
    by_cases h : s = sl
    · subst h
      simp [containsString]
    · have hne : (s == sl) = false := by
        simpa using h
      simp [containsString, hne, ih]
      intro h2
      exact absurd h2.symm h

/-- C10: `CoversSkylink akr sl` returns true exactly when `akr.Public` is
true or `sl` is an element of `akr.Skylinks`. -/
theorem coversSkylink_iff (akr : APIKeyRecord) (sl : String) :
    CoversSkylink akr sl = true ↔ (akr.public = true ∨ sl ∈ akr.skylinks) := by
  unfold CoversSkylink
  by_cases hp : akr.public = true
  · simp [hp]
  · simp [hp, containsString_eq_true_iff_mem]

/-- C9: when `SetPassword` returns a non-nil error, the user's `Salt` and
`Password` fields are unchanged from their values before the call. -/
theorem setPassword_error_preserves_fields (u : User) (ns : List Nat)
    (r : Except String (List Nat)) (e : String)
    (herr : (SetPassword u ns r).1 = some e) :
    (SetPassword u ns r).2.salt = u.salt ∧
      (SetPassword u ns r).2.password = u.password := by
  rcases r with e0 | h0 <;> rcases hd : u.depDisrupt with _ | _ <;>
    simp [SetPassword, hd] at herr ⊢

/-- Witness for C9 at a concrete input: a disrupted hash attempt errors out
and leaves both fields intact. -/
theorem setPassword_error_preserves_fields_witness :
    (SetPassword ⟨[1, 2], [3], true⟩ [7] (Except.ok [9])).2.salt = [3] ∧
      (SetPassword ⟨[1, 2], [3], true⟩ [7] (Except.ok [9])).2.password = [1, 2] :=
  setPassword_error_preserves_fields ⟨[1, 2], [3], true⟩ [7] (Except.ok [9])
    "DependencyHashPassword" (by decide)

/-- C8 counterexample: the two `monthStart` implementations disagree when
`subscribedUntil.Day()` does not exceed `now.Day()`.  At now = 2022-03-15
and a subscription day of 15 the first version returns February 15 while
the second returns March 15. -/
theorem monthStart_versions_differ :
    monthStartV1 ⟨2022, 3, 15⟩ 15 ≠ monthStartV2 ⟨2022, 3, 15⟩ 15 := by
  decide

/-- C8 amended: whenever `daysDelta = subscribedUntil.Day() - now.Day()` is
positive, both `monthStart` versions subtract one month and therefore
return the same date. -/
theorem monthStart_versions_agree_on_positive_delta (now : GoDate) (subDay : Int)
    (h : subDay - now.day > 0) :
    monthStartV1 now subDay = monthStartV2 now subDay := by
  unfold monthStartV1 monthStartV2
  show goDate now.year (now.month - 1) (now.day + (subDay - now.day)) =
    goDate now.year
      (now.month + (if subDay - now.day > 0 then -1 else 0))
      (now.day + (subDay - now.day))
  rw [if_pos h, sub_eq_add_neg]

/-- Witness for the amended C8 at a concrete input with positive delta. -/
theorem monthStart_versions_agree_witness :
    monthStartV1 ⟨2022, 3, 10⟩ 15 = monthStartV2 ⟨2022, 3, 10⟩ 15 :=
  monthStart_versions_agree_on_positive_delta ⟨2022, 3, 10⟩ 15 (by decide)

/-! ## Theorems for the sequential delivery cycle -/

/-- Helper: a conditional claim update really modifies an eligible record:
the written lock fields cannot coincide with the old ones, because an
eligible record is either unlocked or carries a `lockedAt` strictly older
than `now`. -/
theorem lockMsg_ne_of_eligible {cfg : Config} {w : Nat} {m : Msg}
    (h : eligible cfg m = true) : lockMsg w cfg.now m ≠ m := by
  intro heq
  have hby := congrArg Msg.lockedBy heq
  have hat := congrArg Msg.lockedAt heq
  simp [lockMsg] at hby hat
  rw [eligible, ← hby, ← hat] at h
  simp [staleLock] at h

/-- Helper: the full contract of the claim scan, generalized over the
remaining budget `b` and the index `k` of the head of the remaining
store. -/
theorem claimBatchAux_spec (cfg : Config) (w : Nat) :
    ∀ (store : List Msg) (b k : Nat),
      (claimBatchAux cfg w b k store).2.length ≤ b ∧
      (∀ i ∈ (claimBatchAux cfg w b k store).2,
        k ≤ i ∧ ∃ m, store[i - k]? = some m ∧ eligible cfg m = true ∧
          (claimBatchAux cfg w b k store).1[i - k]? =
            some (lockMsg w cfg.now m)) ∧
      (∀ j : Nat,
        ((claimBatchAux cfg w b k store).1[j]? ≠ store[j]? ↔
          (j + k) ∈ (claimBatchAux cfg w b k store).2)) := by
  intro store
  induction store with
  | nil =>
    intro b k
    simp [claimBatchAux]
  | cons m rest ih =>
    intro b k
    by_cases hc : 0 < b ∧ eligible cfg m = true
    · simp only [claimBatchAux, if_pos hc]
      obtain ⟨ihLen, ihMem, ihMod⟩ := ih (b - 1) (k + 1)
      refine ⟨?_, ?_, ?_⟩
      · simpa using Nat.add_le_of_le_sub hc.1 ihLen
      · intro i hi
        rcases List.mem_cons.1 hi with rfl | hi2
        · refine ⟨le_refl i, m, ?_, hc.2, ?_⟩ <;> simp
        · obtain ⟨hk1, m2, hm2, helig2, hlock2⟩ := ihMem i hi2
          have hik : i - k = (i - (k + 1)) + 1 := by omega
          refine ⟨by omega, m2, ?_, helig2, ?_⟩
          · rw [hik, List.getElem?_cons_succ]
            exact hm2
          · rw [hik, List.getElem?_cons_succ]
            exact hlock2
      · intro j
        cases j with
        | zero =>
          simp only [List.getElem?_cons_zero, Nat.zero_add]
          constructor
          · intro _
            exact List.mem_cons_self k _
          · intro _ hEq
            exact lockMsg_ne_of_eligible hc.2 (Option.some.inj hEq)
        | succ j2 =>
          simp only [List.getElem?_cons_succ]
          rw [ihMod j2]
          have hj : j2 + 1 + k = j2 + (k + 1) := by omega
          rw [List.mem_cons]
          constructor
          · intro h2
            right
            rw [hj]
            exact h2
          · intro h2
            rcases h2 with h3 | h3
            · omega
            · exact hj ▸ h3
    · simp only [claimBatchAux, if_neg hc]
      obtain ⟨ihLen, ihMem, ihMod⟩ := ih b (k + 1)
      refine ⟨ihLen, ?_, ?_⟩
      · intro i hi
        obtain ⟨hk1, m2, hm2, helig2, hlock2⟩ := ihMem i hi
        have hik : i - k = (i - (k + 1)) + 1 := by omega
        refine ⟨by omega, m2, ?_, helig2, ?_⟩
        · rw [hik, List.getElem?_cons_succ]
          exact hm2
        · rw [hik, List.getElem?_cons_succ]
          exact hlock2
      · intro j
        cases j with
        | zero =>
          simp only [List.getElem?_cons_zero, Nat.zero_add]
          constructor
          · intro h2
            exact absurd rfl h2
          · intro h2
            obtain ⟨hk1, _⟩ := ihMem k h2
            omega
        | succ j2 =>
          simp only [List.getElem?_cons_succ]
          rw [ihMod j2]
          have hj : j2 + 1 + k = j2 + (k + 1) := by omega
          rw [hj]

/-- C2: `ClaimBatch(workerID, batchSize, staleLockThreshold)` claims only
records satisfying the eligibility predicate, claims at most `batchSize`
records, and returns exactly the identifiers of the records its own
conditional updates actually modified (each of which now carries this
worker's lock). -/
theorem claimBatch_contract (cfg : Config) (w : Nat) (store : List Msg) :
    (ClaimBatch cfg w store).2.length ≤ cfg.batchSize ∧
    (∀ i ∈ (ClaimBatch cfg w store).2,
      ∃ m, store[i]? = some m ∧ eligible cfg m = true ∧
        (ClaimBatch cfg w store).1[i]? = some (lockMsg w cfg.now m)) ∧
    (∀ j : Nat,
      ((ClaimBatch cfg w store).1[j]? ≠ store[j]? ↔
        j ∈ (ClaimBatch cfg w store).2)) := by
  obtain ⟨hLen, hMem, hMod⟩ :=
    claimBatchAux_spec cfg w store cfg.batchSize 0
  refine ⟨hLen, ?_, ?_⟩
  · intro i hi
    obtain ⟨_, m, hm, helig, hlock⟩ := hMem i hi
    rw [Nat.sub_zero] at hm hlock
    exact ⟨m, hm, helig, hlock⟩
  · intro j
    have := hMod j
    rwa [Nat.add_zero] at this

/-- Helper: the claim scan is the identity and claims nothing when no
record is eligible. -/
theorem claimBatchAux_no_eligible (cfg : Config) (w : Nat) :
    ∀ (store : List Msg) (b k : Nat),
      (∀ m ∈ store, eligible cfg m = false) →
      claimBatchAux cfg w b k store = (store, []) := by
  intro store
  induction store with
  | nil =>
    intro b k _
    simp [claimBatchAux]
  | cons m rest ih =>
    intro b k hno
    have hm : eligible cfg m = false := hno m (List.mem_cons_self m rest)
    have hrest : ∀ m2 ∈ rest, eligible cfg m2 = false := by
      intro m2 hm2
      exact hno m2 (List.mem_cons_of_mem m hm2)
    have hc : ¬(0 < b ∧ eligible cfg m = true) := by
      simp [hm]
    simp only [claimBatchAux, if_neg hc, ih b (k + 1) hrest]

/-- C5: running one delivery cycle against a store with zero eligible
records returns `(0, 0)` and leaves every record unchanged. -/
theorem scanAndSend_noop (cfg : Config) (w : Nat) (tr : Msg → Bool)
    (store : List Msg) (hno : ∀ m ∈ store, eligible cfg m = false) :
    ScanAndSend cfg w tr store = ((0, 0), store) := by
  unfold ScanAndSend ClaimBatch
  rw [claimBatchAux_no_eligible cfg w store cfg.batchSize 0 hno]
  simp [sendAll]

/-- Witness for C5: a store holding one already-sent record is left
untouched and the cycle reports `(0, 0)`. -/
theorem scanAndSend_noop_witness :
    ScanAndSend ⟨10, 3, 3600, 42⟩ 0 (fun _ => true)
        [⟨"a", "s", "b", 0, some 7, 0, none, none⟩] =
      ((0, 0), [⟨"a", "s", "b", 0, some 7, 0, none, none⟩]) :=
  scanAndSend_noop _ _ _ _ (by decide)

/-- C7: enqueueing one fresh message and running one delivery cycle with
the dry-run transport (which always succeeds) reports one success, sets
the message's `sentAt` to the (non-zero-value) current time, and leaves
`failedAttempts` at 0. -/
theorem single_message_sent (cfg : Config) (w : Nat) (m : Msg)
    (hbatch : 0 < cfg.batchSize) (hmax : 0 < cfg.maxAttempts)
    (hsent : m.sentAt = none) (hatt : m.failedAttempts = 0)
    (hlock : m.lockedBy = none) :
    (ScanAndSend cfg w (fun _ => true) [m]).1 = (1, 0) ∧
      ∃ m2, (ScanAndSend cfg w (fun _ => true) [m]).2 = [m2] ∧
        m2.sentAt = some cfg.now ∧ m2.failedAttempts = 0 := by
  have helig : eligible cfg m = true := by
    simp [eligible, hsent, hatt, hlock, hmax]
  have h1 : claimBatchAux cfg w cfg.batchSize 0 [m] =
      ([lockMsg w cfg.now m], [0]) := by
    simp [claimBatchAux, hbatch, helig]
  unfold ScanAndSend ClaimBatch
  simp only [h1]
  refine ⟨by simp [sendAll], markSent cfg.now (lockMsg w cfg.now m),
    by simp [sendAll], rfl, hatt⟩

/-- Witness for C7 at a concrete fresh message. -/
theorem single_message_sent_witness :
    (ScanAndSend ⟨10, 3, 3600, 42⟩ 0 (fun _ => true)
        [⟨"a@siasky.net", "s", "b", 0, none, 0, none, none⟩]).1 = (1, 0) ∧
      ∃ m2, (ScanAndSend ⟨10, 3, 3600, 42⟩ 0 (fun _ => true)
          [⟨"a@siasky.net", "s", "b", 0, none, 0, none, none⟩]).2 = [m2] ∧
        m2.sentAt = some 42 ∧ m2.failedAttempts = 0 :=
  single_message_sent ⟨10, 3, 3600, 42⟩ 0
    ⟨"a@siasky.net", "s", "b", 0, none, 0, none, none⟩
    (by decide) (by decide) rfl rfl rfl

/-! ## Concurrent sender model

Multiple workers share the store; the only atomicity the spec grants is
the per-record conditional update (§4.1) and the per-record outcome
write-back (§4.2), so the transition system takes exactly those as its
atomic actions, interleaved arbitrarily across workers. -/

/-- Modelled from the spec and src/unnamed/part_000: the local state of
one sender goroutine.  `claimed` is the batch it currently owns,
`successes`/`failures` accumulate the per-cycle counts (the test sums
them into `count`), `emptyStreak` is the `noneFetched` counter of the
sender loop, and `stopped` records that the loop returned. -/
structure WState where
  claimed : List Nat
  successes : Nat
  failures : Nat
  emptyStreak : Nat
  stopped : Bool
deriving DecidableEq

/-- Modelled from the spec: the shared store plus every worker's local
state — the store is the only shared mutable resource (§5). -/
structure GState where
  store : List Msg
  workers : List WState
deriving DecidableEq

/-- Modelled from the spec: no record of the store is eligible. -/
def noEligible (cfg : Config) (store : List Msg) : Prop :=
  ∀ m ∈ store, eligible cfg m = false

/-- Number of records whose `sentAt` is set. -/
def sentCount (store : List Msg) : Nat :=
  store.countP (fun m => m.sentAt != none)

/-- Sum over all workers of the per-cycle success counts. -/
def totalSuccesses (g : GState) : Nat :=
  (g.workers.map WState.successes).sum

/-- Sum over all workers of the per-cycle failure counts. -/
def totalFailures (g : GState) : Nat :=
  (g.workers.map WState.failures).sum

/-- Modelled from the spec and src/unnamed/part_000: one atomic action of
the cluster.  `claimOne` is a single conditional claim update that
re-checks eligibility at the moment it fires (§4.1); `sendOk`/`sendFail`
deliver one owned record and atomically write the outcome back (§4.2);
`observeEmpty` is a delivery cycle whose claim scan found no eligible
record, incrementing the `noneFetched` counter; a worker resets that
counter whenever it claims, and may `stop` only between cycles once the
counter exceeds 10, which is the loop exit rule of the test's sender.
The clock does not advance during a run (`cfg.now` is fixed), and
`failAllowed` selects whether the transport may fail. -/
inductive SenderStep (cfg : Config) (failAllowed : Bool) :
    GState → GState → Prop
  | claimOne (g : GState) (w i : Nat) (hw : w < g.workers.length)
      (hi : i < g.store.length)
      (hrun : (g.workers[w]).stopped = false)
      (hroom : (g.workers[w]).claimed.length < cfg.batchSize)
      (helig : eligible cfg (g.store[i]) = true) :
      SenderStep cfg failAllowed g
        ⟨g.store.set i (lockMsg w cfg.now (g.store[i])),
         g.workers.set w
           { g.workers[w] with
               claimed := i :: (g.workers[w]).claimed, emptyStreak := 0 }⟩
  | sendOk (g : GState) (w i : Nat) (rest : List Nat)
      (hw : w < g.workers.length) (hi : i < g.store.length)
      (hrun : (g.workers[w]).stopped = false)
      (hcl : (g.workers[w]).claimed = i :: rest) :
      SenderStep cfg failAllowed g
        ⟨g.store.set i (markSent cfg.now (g.store[i])),
         g.workers.set w
           { g.workers[w] with
               claimed := rest,
               successes := (g.workers[w]).successes + 1 }⟩
  | sendFail (g : GState) (w i : Nat) (rest : List Nat)
      (hw : w < g.workers.length) (hi : i < g.store.length)
      (hrun : (g.workers[w]).stopped = false)
      (hcl : (g.workers[w]).claimed = i :: rest)
      (hfail : failAllowed = true) :
      SenderStep cfg failAllowed g
        ⟨g.store.set i (markFailed (g.store[i])),
         g.workers.set w
           { g.workers[w] with
               claimed := rest,
               failures := (g.workers[w]).failures + 1 }⟩
  | observeEmpty (g : GState) (w : Nat) (hw : w < g.workers.length)
      (hrun : (g.workers[w]).stopped = false)
      (hcl : (g.workers[w]).claimed = [])
      (hno : noEligible cfg g.store) :
      SenderStep cfg failAllowed g
        ⟨g.store,
         g.workers.set w
           { g.workers[w] with
               emptyStreak := (g.workers[w]).emptyStreak + 1 }⟩
  | stop (g : GState) (w : Nat) (hw : w < g.workers.length)
      (hrun : (g.workers[w]).stopped = false)
      (hcl : (g.workers[w]).claimed = [])
      (hstreak : 10 < (g.workers[w]).emptyStreak) :
      SenderStep cfg failAllowed g
        ⟨g.store, g.workers.set w { g.workers[w] with stopped := true }⟩

/-- Modelled from the spec: interleaved execution of any number of
workers — the reflexive-transitive closure of the atomic actions. -/
def Reach (cfg : Config) (failAllowed : Bool) : GState → GState → Prop :=
  Relation.ReflTransGen (SenderStep cfg failAllowed)

/-- Modelled from the spec and src/unnamed/part_000: the starting state of
the contention scenario — `M` freshly enqueued messages (unsent, no failed
attempts, unlocked) and `W` workers that have done nothing yet. -/
def IsInitial (M W : Nat) (g : GState) : Prop :=
  g.store.length = M ∧
  (∀ m ∈ g.store,
    m.sentAt = none ∧ m.failedAttempts = 0 ∧ m.lockedBy = none) ∧
  g.workers = List.replicate W ⟨[], 0, 0, 0, false⟩

/-! ## The sender-loop exit rule (src/unnamed/part_000) -/

/-- Embeds the `noneFetched` bookkeeping of the sender goroutine in
`TestContendingSenders` (src/unnamed/part_000 lines 110-123): a cycle
whose success+failure sum is zero increments the counter, any other
cycle resets it to zero. -/
def stepNoneFetched (noneFetched : Nat) (cycleSum : Nat) : Nat :=
  if cycleSum = 0 then noneFetched + 1 else 0

/-- The `noneFetched` counter after a sequence of cycle sums. -/
def noneFetchedAfter (sums : List Nat) : Nat :=
  sums.foldl stepNoneFetched 0

/-- Embeds the loop exit test `noneFetched > 10` of the test's sender
(src/unnamed/part_000 line 120). -/
def senderStops (noneFetched : Nat) : Bool :=
  decide (10 < noneFetched)

/-! ## Invariants of fail-free contention runs -/

/-- Helper: counting a predicate after a single `set`, without
subtraction. -/
theorem countP_set_sum {α : Type} (p : α → Bool) :
    ∀ (l : List α) (i : Nat) (hi : i < l.length) (x : α),
      (l.set i x).countP p + (if p (l[i]) then 1 else 0) =
        l.countP p + (if p x then 1 else 0) := by
  intro l
  induction l with
  | nil =>
    intro i hi
    simp at hi
  | cons a rest ih =>
    intro i hi x
    cases i with
    | zero =>
      simp only [List.set_cons_zero, List.countP_cons, List.getElem_cons_zero]
      omega
    | succ n =>
      have hn : n < rest.length := by
        simpa using hi
      simp only [List.set_cons_succ, List.countP_cons, List.getElem_cons_succ]
      have := ih n hn x
      omega

/-- Helper: summing a projection after a single `set`, without
subtraction. -/
theorem mapSum_set {α : Type} (f : α → Nat) :
    ∀ (l : List α) (i : Nat) (hi : i < l.length) (x : α),
      ((l.set i x).map f).sum + f (l[i]) = (l.map f).sum + f x := by
  intro l
  induction l with
  | nil =>
    intro i hi
    simp at hi
  | cons a rest ih =>
    intro i hi x
    cases i with
    | zero =>
      simp only [List.set_cons_zero, List.map_cons, List.sum_cons,
        List.getElem_cons_zero]
      omega
    | succ n =>
      have hn : n < rest.length := by
        simpa using hi
      simp only [List.set_cons_succ, List.map_cons, List.sum_cons,
        List.getElem_cons_succ]
      have := ih n hn x
      omega

/-- Helper: `set` with an element the predicate judges like the old one
keeps the count. -/
theorem countP_set_keep {α : Type} (p : α → Bool) (l : List α) (i : Nat)
    (hi : i < l.length) (x : α) (heq : p x = p (l[i])) :
    (l.set i x).countP p = l.countP p := by
  have h := countP_set_sum p l i hi x
  rw [heq] at h
  omega

/-- Helper: `set` replacing a non-matching element by a matching one
increments the count. -/
theorem countP_set_true {α : Type} (p : α → Bool) (l : List α) (i : Nat)
    (hi : i < l.length) (x : α) (hold : p (l[i]) = false)
    (hnew : p x = true) :
    (l.set i x).countP p = l.countP p + 1 := by
  have h := countP_set_sum p l i hi x
  rw [hold, hnew] at h
  simp at h
  omega

/-- Helper: `set` with an element of equal measure keeps the mapped
sum. -/
theorem mapSum_set_eq {α : Type} (f : α → Nat) (l : List α) (i : Nat)
    (hi : i < l.length) (x : α) (heq : f x = f (l[i])) :
    ((l.set i x).map f).sum = (l.map f).sum := by
  have h := mapSum_set f l i hi x
  rw [heq] at h
  omega

/-- Helper: `set` with an element of measure one greater increments the
mapped sum. -/
theorem mapSum_set_add {α : Type} (f : α → Nat) (l : List α) (i : Nat)
    (hi : i < l.length) (x : α) (heq : f x = f (l[i]) + 1) :
    ((l.set i x).map f).sum = (l.map f).sum + 1 := by
  have h := mapSum_set f l i hi x
  rw [heq] at h
  omega

/-- Helper: an eligible record has `sentAt` unset. -/
theorem eligible_sentAt {cfg : Config} {m : Msg}
    (h : eligible cfg m = true) : m.sentAt = none := by
  simp [eligible] at h
  exact h.1.1

/-- Helper: an eligible record is below the attempt ceiling. -/
theorem eligible_attempts {cfg : Config} {m : Msg}
    (h : eligible cfg m = true) : m.failedAttempts < cfg.maxAttempts := by
  simp [eligible] at h
  exact h.1.2

/-- Helper: a record whose lock (if any) was taken at the current instant
can only be eligible if it is in fact unlocked, because such a lock is
never stale. -/
theorem eligible_unlocked {cfg : Config} {m : Msg}
    (h : eligible cfg m = true)
    (hat : ∀ w2, m.lockedBy = some w2 → m.lockedAt = some cfg.now) :
    m.lockedBy = none := by
  rcases hby : m.lockedBy with _ | w2
  · rfl
  · have h1 := hat w2 hby
    have h2 : ¬(cfg.now + cfg.staleLockThreshold < cfg.now) := by omega
    simp [eligible, hby, h1, staleLock, h2] at h

/-- Helper: a record just marked sent is not eligible. -/
theorem not_eligible_markSent (cfg : Config) (now : Nat) (m : Msg) :
    eligible cfg (markSent now m) = false := by
  simp [eligible, markSent]

/-- Inductive invariant of runs of `SenderStep cfg false` started from an
initial state with `M` messages and `W` workers: sizes are preserved, no
attempt ever fails, claimed records are exactly the locked ones and are
owned by a unique running worker, a stopped worker holds nothing, a
positive `noneFetched` streak certifies that the store was (and remains)
drained, and the store's sent count equals the workers' success total. -/
structure Inv (cfg : Config) (M W : Nat) (g : GState) : Prop where
  storeLen : g.store.length = M
  workersLen : g.workers.length = W
  noFail : ∀ m ∈ g.store, m.failedAttempts = 0
  wFail : ∀ ws ∈ g.workers, ws.failures = 0
  owned : ∀ (w : Nat) (hw : w < g.workers.length),
    ∀ i ∈ (g.workers[w]).claimed,
      ∃ hi : i < g.store.length,
        (g.store[i]).lockedBy = some w ∧ (g.store[i]).sentAt = none
  locks : ∀ (i : Nat) (hi : i < g.store.length) (w : Nat),
    (g.store[i]).lockedBy = some w →
      ∃ hw : w < g.workers.length,
        i ∈ (g.workers[w]).claimed ∧
        (g.workers[w]).stopped = false ∧
        (g.store[i]).lockedAt = some cfg.now
  nodup : ∀ (w : Nat) (hw : w < g.workers.length),
    (g.workers[w]).claimed.Nodup
  stoppedQuiet : ∀ (w : Nat) (hw : w < g.workers.length),
    (g.workers[w]).stopped = true →
      (g.workers[w]).claimed = [] ∧ 0 < (g.workers[w]).emptyStreak
  streakQuiet : ∀ (w : Nat) (hw : w < g.workers.length),
    0 < (g.workers[w]).emptyStreak → noEligible cfg g.store
  counts : sentCount g.store = totalSuccesses g

/-- The invariant holds at every initial state. -/
theorem inv_init (cfg : Config) (M W : Nat) (g : GState)
    (hinit : IsInitial M W g) : Inv cfg M W g := by
  obtain ⟨hlen, hfresh, hworkers⟩ := hinit
  have hget : ∀ (w : Nat) (hw : w < g.workers.length),
      g.workers[w] = ⟨[], 0, 0, 0, false⟩ := by
    intro w hw
    rw [List.getElem_of_eq hworkers hw, List.getElem_replicate]
  refine ⟨hlen, by rw [hworkers]; simp, ?_, ?_, ?_, ?_, ?_, ?_, ?_, ?_⟩
  · intro m hm
    exact (hfresh m hm).2.1
  · intro ws hws
    rw [hworkers] at hws
    rw [List.eq_of_mem_replicate hws]
  · intro w hw i hi
    rw [hget w hw] at hi
    simp at hi
  · intro i hi w hby
    have := (hfresh (g.store[i]) (List.getElem_mem hi)).2.2
    rw [this] at hby
    cases hby
  · intro w hw
    rw [hget w hw]
    simp
  · intro w hw hstop
    rw [hget w hw] at hstop
    simp at hstop
  · intro w hw hstreak
    rw [hget w hw] at hstreak
    simp at hstreak
  · unfold sentCount totalSuccesses
    rw [hworkers]
    have h0 : g.store.countP (fun m => m.sentAt != none) = 0 := by
      rw [List.countP_eq_zero]
      intro m hm
      simp [(hfresh m hm).1]
    rw [h0]
    simp [List.map_replicate]

/-- The invariant is preserved by every atomic action of a fail-free
run. -/
theorem inv_step {cfg : Config} {M W : Nat} {g g2 : GState}
    (hstep : SenderStep cfg false g g2) (hinv : Inv cfg M W g) :
    Inv cfg M W g2 := by
  cases hstep with
  | claimOne w i hw hi hrun hroom helig =>
    have hat : ∀ w2, (g.store[i]).lockedBy = some w2 →
        (g.store[i]).lockedAt = some cfg.now := by
      intro w2 hl
      obtain ⟨hw2, _, _, h4⟩ := hinv.locks i hi w2 hl
      exact h4
    have hnone : (g.store[i]).lockedBy = none := eligible_unlocked helig hat
    have hsentnone : (g.store[i]).sentAt = none := eligible_sentAt helig
    have hNotClaimed : ∀ (w2 : Nat) (hw2 : w2 < g.workers.length),
        i ∉ (g.workers[w2]).claimed := by
      intro w2 hw2 hmem
      obtain ⟨hi2, hby, _⟩ := hinv.owned w2 hw2 i hmem
      exact Option.noConfusion (hnone.symm.trans hby)
    refine ⟨?_, ?_, ?_, ?_, ?_, ?_, ?_, ?_, ?_, ?_⟩
    · simp [hinv.storeLen]
    · simp [hinv.workersLen]
    · intro m hm
      rcases List.mem_or_eq_of_mem_set hm with h2 | rfl
      · exact hinv.noFail m h2
      · exact hinv.noFail (g.store[i]) (List.getElem_mem hi)
    · intro ws hws
      rcases List.mem_or_eq_of_mem_set hws with h2 | rfl
      · exact hinv.wFail _ h2
      · exact hinv.wFail (g.workers[w]) (List.getElem_mem hw)
    · intro w2 hw2' j hj
      have hw2 : w2 < g.workers.length := by simpa using hw2'
      by_cases hww : w2 = w
      · subst hww
        simp only [List.getElem_set_self] at hj
        rcases List.mem_cons.1 hj with rfl | hj2
        · refine ⟨by simpa using hi, ?_, ?_⟩
          · simp only [List.getElem_set_self]
            rfl
          · simp only [List.getElem_set_self]
            exact hsentnone
        · obtain ⟨hj', hby, hs⟩ := hinv.owned w2 hw2 j hj2
          have hji : j ≠ i := by
            intro hEq
            subst hEq
            exact hNotClaimed w2 hw2 hj2
          refine ⟨by simpa using hj', ?_, ?_⟩
          · simp only [List.getElem_set_ne (Ne.symm hji)]
            exact hby
          · simp only [List.getElem_set_ne (Ne.symm hji)]
            exact hs
      · simp only [List.getElem_set_ne (Ne.symm hww)] at hj
        obtain ⟨hj', hby, hs⟩ := hinv.owned w2 hw2 j hj
        have hji : j ≠ i := by
          intro hEq
          subst hEq
          exact Option.noConfusion (hnone.symm.trans hby)
        refine ⟨by simpa using hj', ?_, ?_⟩
        · simp only [List.getElem_set_ne (Ne.symm hji)]
          exact hby
        · simp only [List.getElem_set_ne (Ne.symm hji)]
          exact hs
    · intro j hj' w2 hby2
      have hj : j < g.store.length := by simpa using hj'
      by_cases hji : j = i
      · subst hji
        simp only [List.getElem_set_self] at hby2
        have hw2w : w2 = w := by
          have h6 : some w = some w2 := hby2
          exact (Option.some.inj h6).symm
        subst hw2w
        refine ⟨by simpa using hw, ?_, ?_, ?_⟩
        · simp only [List.getElem_set_self]
          exact List.mem_cons_self _ _
        · simp only [List.getElem_set_self]
          exact hrun
        · simp only [List.getElem_set_self]
          rfl
      · simp only [List.getElem_set_ne (Ne.symm hji)] at hby2
        obtain ⟨hw2, hmem, hstop, hat2⟩ := hinv.locks j hj w2 hby2
        by_cases hww : w2 = w
        · subst hww
          refine ⟨by simpa using hw2, ?_, ?_, ?_⟩
          · simp only [List.getElem_set_self]
            exact List.mem_cons_of_mem _ hmem
          · simp only [List.getElem_set_self]
            exact hstop
          · simp only [List.getElem_set_ne (Ne.symm hji)]
            exact hat2
        · refine ⟨by simpa using hw2, ?_, ?_, ?_⟩
          · simp only [List.getElem_set_ne (Ne.symm hww)]
            exact hmem
          · simp only [List.getElem_set_ne (Ne.symm hww)]
            exact hstop
          · simp only [List.getElem_set_ne (Ne.symm hji)]
            exact hat2
    · intro w2 hw2'
      have hw2 : w2 < g.workers.length := by simpa using hw2'
      by_cases hww : w2 = w
      · subst hww
        simp only [List.getElem_set_self]
        exact List.nodup_cons.2 ⟨hNotClaimed w2 hw2, hinv.nodup w2 hw2⟩
      · simp only [List.getElem_set_ne (Ne.symm hww)]
        exact hinv.nodup w2 hw2
    · intro w2 hw2' hstop
      have hw2 : w2 < g.workers.length := by simpa using hw2'
      by_cases hww : w2 = w
      · subst hww
        simp only [List.getElem_set_self] at hstop
        exact Bool.noConfusion (hrun.symm.trans hstop)
      · simp only [List.getElem_set_ne (Ne.symm hww)] at hstop ⊢
        exact hinv.stoppedQuiet w2 hw2 hstop
    · intro w2 hw2' hstreak
      have hw2 : w2 < g.workers.length := by simpa using hw2'
      by_cases hww : w2 = w
      · subst hww
        simp only [List.getElem_set_self] at hstreak
        simp at hstreak
      · simp only [List.getElem_set_ne (Ne.symm hww)] at hstreak
        have hno := hinv.streakQuiet w2 hw2 hstreak
        have h7 := hno (g.store[i]) (List.getElem_mem hi)
        simp [helig] at h7
    · have h5 := hinv.counts
      simp only [sentCount, totalSuccesses] at h5 ⊢
      rw [countP_set_keep (fun m : Msg => m.sentAt != none) g.store i hi
          (lockMsg w cfg.now (g.store[i])) rfl,
        mapSum_set_eq WState.successes g.workers w hw
          { g.workers[w] with
              claimed := i :: (g.workers[w]).claimed, emptyStreak := 0 }
          rfl]
      exact h5
  | sendOk w i rest hw hi hrun hcl =>
    have hmem_i : i ∈ (g.workers[w]).claimed := by
      rw [hcl]
      exact List.mem_cons_self _ _
    obtain ⟨hi0, hby, hsent⟩ := hinv.owned w hw i hmem_i
    have hby1 : (g.store[i]).lockedBy = some w := hby
    have hsent1 : (g.store[i]).sentAt = none := hsent
    have hnodup := hinv.nodup w hw
    rw [hcl] at hnodup
    have hiNotRest : i ∉ rest := (List.nodup_cons.1 hnodup).1
    have hrestNodup : rest.Nodup := (List.nodup_cons.1 hnodup).2
    refine ⟨?_, ?_, ?_, ?_, ?_, ?_, ?_, ?_, ?_, ?_⟩
    · simp [hinv.storeLen]
    · simp [hinv.workersLen]
    · intro m hm
      rcases List.mem_or_eq_of_mem_set hm with h2 | rfl
      · exact hinv.noFail m h2
      · exact hinv.noFail (g.store[i]) (List.getElem_mem hi)
    · intro ws hws
      rcases List.mem_or_eq_of_mem_set hws with h2 | rfl
      · exact hinv.wFail _ h2
      · exact hinv.wFail (g.workers[w]) (List.getElem_mem hw)
    · intro w2 hw2' j hj
      have hw2 : w2 < g.workers.length := by simpa using hw2'
      by_cases hww : w2 = w
      · subst hww
        simp only [List.getElem_set_self] at hj
        have hjm : j ∈ (g.workers[w2]).claimed := by
          rw [hcl]
          exact List.mem_cons_of_mem _ hj
        obtain ⟨hj', hby2, hs2⟩ := hinv.owned w2 hw2 j hjm
        have hji : j ≠ i := fun hEq => hiNotRest (hEq ▸ hj)
        refine ⟨by simpa using hj', ?_, ?_⟩
        · simp only [List.getElem_set_ne (Ne.symm hji)]
          exact hby2
        · simp only [List.getElem_set_ne (Ne.symm hji)]
          exact hs2
      · simp only [List.getElem_set_ne (Ne.symm hww)] at hj
        obtain ⟨hj', hby2, hs2⟩ := hinv.owned w2 hw2 j hj
        have hji : j ≠ i := by
          intro hEq
          subst hEq
          have h6 : some w2 = some w := hby2.symm.trans hby1
          exact hww (Option.some.inj h6)
        refine ⟨by simpa using hj', ?_, ?_⟩
        · simp only [List.getElem_set_ne (Ne.symm hji)]
          exact hby2
        · simp only [List.getElem_set_ne (Ne.symm hji)]
          exact hs2
    · intro j hj' w2 hby2
      have hj : j < g.store.length := by simpa using hj'
      by_cases hji : j = i
      · subst hji
        simp only [List.getElem_set_self] at hby2
        exact Option.noConfusion hby2
      · simp only [List.getElem_set_ne (Ne.symm hji)] at hby2
        obtain ⟨hw2, hmem, hstop, hat2⟩ := hinv.locks j hj w2 hby2
        by_cases hww : w2 = w
        · subst hww
          refine ⟨by simpa using hw2, ?_, ?_, ?_⟩
          · simp only [List.getElem_set_self]
            rw [hcl] at hmem
            rcases List.mem_cons.1 hmem with rfl | h2
            · exact absurd rfl hji
            · exact h2
          · simp only [List.getElem_set_self]
            exact hrun
          · simp only [List.getElem_set_ne (Ne.symm hji)]
            exact hat2
        · refine ⟨by simpa using hw2, ?_, ?_, ?_⟩
          · simp only [List.getElem_set_ne (Ne.symm hww)]
            exact hmem
          · simp only [List.getElem_set_ne (Ne.symm hww)]
            exact hstop
          · simp only [List.getElem_set_ne (Ne.symm hji)]
            exact hat2
    · intro w2 hw2'
      have hw2 : w2 < g.workers.length := by simpa using hw2'
      by_cases hww : w2 = w
      · subst hww
        simp only [List.getElem_set_self]
        exact hrestNodup
      · simp only [List.getElem_set_ne (Ne.symm hww)]
        exact hinv.nodup w2 hw2
    · intro w2 hw2' hstop
      have hw2 : w2 < g.workers.length := by simpa using hw2'
      by_cases hww : w2 = w
      · subst hww
        simp only [List.getElem_set_self] at hstop
        exact Bool.noConfusion (hrun.symm.trans hstop)
      · simp only [List.getElem_set_ne (Ne.symm hww)] at hstop ⊢
        exact hinv.stoppedQuiet w2 hw2 hstop
    · intro w2 hw2' hstreak
      have hw2 : w2 < g.workers.length := by simpa using hw2'
      have hstreak2 : 0 < (g.workers[w2]).emptyStreak := by
        by_cases hww : w2 = w
        · subst hww
          simpa only [List.getElem_set_self] using hstreak
        · simpa only [List.getElem_set_ne (Ne.symm hww)] using hstreak
      have hno := hinv.streakQuiet w2 hw2 hstreak2
      intro m hm
      rcases List.mem_or_eq_of_mem_set hm with h2 | rfl
      · exact hno m h2
      · exact not_eligible_markSent cfg cfg.now _
    · have h5 := hinv.counts
      simp only [sentCount, totalSuccesses] at h5 ⊢
      rw [countP_set_true (fun m : Msg => m.sentAt != none) g.store i hi
          (markSent cfg.now (g.store[i])) (by simp [hsent1]) rfl,
        mapSum_set_add WState.successes g.workers w hw
          { g.workers[w] with
              claimed := rest, successes := (g.workers[w]).successes + 1 }
          rfl]
      omega
  | sendFail w i rest hw hi hrun hcl hfail =>
    exact Bool.noConfusion hfail
  | observeEmpty w hw hrun hcl hno =>
    refine ⟨?_, ?_, ?_, ?_, ?_, ?_, ?_, ?_, ?_, ?_⟩
    · exact hinv.storeLen
    · simp [hinv.workersLen]
    · exact hinv.noFail
    · intro ws hws
      rcases List.mem_or_eq_of_mem_set hws with h2 | rfl
      · exact hinv.wFail _ h2
      · exact hinv.wFail (g.workers[w]) (List.getElem_mem hw)
    · intro w2 hw2' j hj
      have hw2 : w2 < g.workers.length := by simpa using hw2'
      by_cases hww : w2 = w
      · subst hww
        simp only [List.getElem_set_self] at hj
        exact hinv.owned w2 hw2 j hj
      · simp only [List.getElem_set_ne (Ne.symm hww)] at hj
        exact hinv.owned w2 hw2 j hj
    · intro j hj w2 hby2
      obtain ⟨hw2, hmem, hstop, hat2⟩ := hinv.locks j hj w2 hby2
      by_cases hww : w2 = w
      · subst hww
        refine ⟨by simpa using hw2, ?_, ?_, hat2⟩
        · simp only [List.getElem_set_self]
          exact hmem
        · simp only [List.getElem_set_self]
          exact hrun
      · refine ⟨by simpa using hw2, ?_, ?_, hat2⟩
        · simp only [List.getElem_set_ne (Ne.symm hww)]
          exact hmem
        · simp only [List.getElem_set_ne (Ne.symm hww)]
          exact hstop
    · intro w2 hw2'
      have hw2 : w2 < g.workers.length := by simpa using hw2'
      by_cases hww : w2 = w
      · subst hww
        simp only [List.getElem_set_self]
        exact hinv.nodup w2 hw2
      · simp only [List.getElem_set_ne (Ne.symm hww)]
        exact hinv.nodup w2 hw2
    · intro w2 hw2' hstop
      have hw2 : w2 < g.workers.length := by simpa using hw2'
      by_cases hww : w2 = w
      · subst hww
        simp only [List.getElem_set_self] at hstop
        exact Bool.noConfusion (hrun.symm.trans hstop)
      · simp only [List.getElem_set_ne (Ne.symm hww)] at hstop ⊢
        exact hinv.stoppedQuiet w2 hw2 hstop
    · intro w2 hw2' hstreak
      exact hno
    · have h5 := hinv.counts
      simp only [sentCount, totalSuccesses] at h5 ⊢
      rw [mapSum_set_eq WState.successes g.workers w hw
          { g.workers[w] with
              emptyStreak := (g.workers[w]).emptyStreak + 1 }
          rfl]
      exact h5
  | stop w hw hrun hcl hstreak =>
    refine ⟨?_, ?_, ?_, ?_, ?_, ?_, ?_, ?_, ?_, ?_⟩
    · exact hinv.storeLen
    · simp [hinv.workersLen]
    · exact hinv.noFail
    · intro ws hws
      rcases List.mem_or_eq_of_mem_set hws with h2 | rfl
      · exact hinv.wFail _ h2
      · exact hinv.wFail (g.workers[w]) (List.getElem_mem hw)
    · intro w2 hw2' j hj
      have hw2 : w2 < g.workers.length := by simpa using hw2'
      by_cases hww : w2 = w
      · subst hww
        simp only [List.getElem_set_self] at hj
        exact hinv.owned w2 hw2 j hj
      · simp only [List.getElem_set_ne (Ne.symm hww)] at hj
        exact hinv.owned w2 hw2 j hj
    · intro j hj w2 hby2
      obtain ⟨hw2, hmem, hstop, hat2⟩ := hinv.locks j hj w2 hby2
      by_cases hww : w2 = w
      · subst hww
        rw [hcl] at hmem
        cases hmem
      · refine ⟨by simpa using hw2, ?_, ?_, hat2⟩
        · simp only [List.getElem_set_ne (Ne.symm hww)]
          exact hmem
        · simp only [List.getElem_set_ne (Ne.symm hww)]
          exact hstop
    · intro w2 hw2'
      have hw2 : w2 < g.workers.length := by simpa using hw2'
      by_cases hww : w2 = w
      · subst hww
        simp only [List.getElem_set_self]
        exact hinv.nodup w2 hw2
      · simp only [List.getElem_set_ne (Ne.symm hww)]
        exact hinv.nodup w2 hw2
    · intro w2 hw2' hstop
      have hw2 : w2 < g.workers.length := by simpa using hw2'
      by_cases hww : w2 = w
      · subst hww
        simp only [List.getElem_set_self]
        refine ⟨hcl, by omega⟩
      · simp only [List.getElem_set_ne (Ne.symm hww)] at hstop ⊢
        exact hinv.stoppedQuiet w2 hw2 hstop
    · intro w2 hw2' hstreak2
      have hw2 : w2 < g.workers.length := by simpa using hw2'
      have hstreak3 : 0 < (g.workers[w2]).emptyStreak := by
        by_cases hww : w2 = w
        · subst hww
          simpa only [List.getElem_set_self] using hstreak2
        · simpa only [List.getElem_set_ne (Ne.symm hww)] using hstreak2
      exact hinv.streakQuiet w2 hw2 hstreak3
    · have h5 := hinv.counts
      simp only [sentCount, totalSuccesses] at h5 ⊢
      rw [mapSum_set_eq WState.successes g.workers w hw
          { g.workers[w] with stopped := true } rfl]
      exact h5

/-- The invariant lifts to reachability. -/
theorem inv_reach {cfg : Config} {M W : Nat} {g0 g : GState}
    (hreach : Reach cfg false g0 g) (hinv : Inv cfg M W g0) :
    Inv cfg M W g := by
  induction hreach with
  | refl => exact hinv
  | tail hsteps hstep ih => exact inv_step hstep ih

/-- Helper: in any invariant state where every worker has stopped, every
message has been sent, the success total matches, and no failure was ever
recorded. -/
theorem exactly_once_main {cfg : Config} {M W : Nat} {g : GState}
    (hW : 0 < W) (hmax : 0 < cfg.maxAttempts) (hinv : Inv cfg M W g)
    (hstopped : ∀ ws ∈ g.workers, ws.stopped = true) :
    sentCount g.store = M ∧ totalSuccesses g = M ∧ totalFailures g = 0 := by
  have hw0 : 0 < g.workers.length := by
    rw [hinv.workersLen]
    exact hW
  have hstop0 : (g.workers[0]).stopped = true :=
    hstopped _ (List.getElem_mem hw0)
  obtain ⟨-, hstreak⟩ := hinv.stoppedQuiet 0 hw0 hstop0
  have hno : noEligible cfg g.store := hinv.streakQuiet 0 hw0 hstreak
  have hall : ∀ (i : Nat) (hi : i < g.store.length),
      (g.store[i]).sentAt ≠ none := by
    intro i hi hsent
    have hel := hno (g.store[i]) (List.getElem_mem hi)
    have hatt : (g.store[i]).failedAttempts = 0 :=
      hinv.noFail _ (List.getElem_mem hi)
    have hlock : (g.store[i]).lockedBy = none := by
      rcases hby : (g.store[i]).lockedBy with _ | w2
      · rfl
      · obtain ⟨hw2, hmem, hstop, -⟩ := hinv.locks i hi w2 hby
        rw [hstopped _ (List.getElem_mem hw2)] at hstop
        cases hstop
    rw [eligible, hsent, hlock, hatt] at hel
    simp [hmax] at hel
  have hlen : sentCount g.store = g.store.length := by
    unfold sentCount
    rw [List.countP_eq_length]
    intro m hm
    obtain ⟨i, hi, hEq⟩ := List.mem_iff_getElem.1 hm
    subst hEq
    simpa using hall i hi
  have hfail0 : totalFailures g = 0 := by
    unfold totalFailures
    apply List.sum_eq_zero
    intro x hx
    obtain ⟨ws, hws, hEq⟩ := List.mem_map.1 hx
    rw [← hEq]
    exact hinv.wFail ws hws
  refine ⟨?_, ?_, hfail0⟩
  · rw [hlen, hinv.storeLen]
  · rw [← hinv.counts, hlen, hinv.storeLen]

/-- C1: for any number `W > 0` of concurrent workers repeatedly running
delivery cycles (with the always-succeeding dry-run transport) against a
shared store of `M` enqueued messages, once every worker has stopped the
number of records with `sentAt` set equals `M` and the per-cycle success
counts summed over all workers equal `M`: no message is delivered twice
and none is lost. -/
theorem exactly_once_under_contention (cfg : Config) (M W : Nat)
    (g0 g : GState) (hW : 0 < W) (hmax : 0 < cfg.maxAttempts)
    (hinit : IsInitial M W g0) (hreach : Reach cfg false g0 g)
    (hstopped : ∀ ws ∈ g.workers, ws.stopped = true) :
    sentCount g.store = M ∧ totalSuccesses g = M :=
  ⟨(exactly_once_main hW hmax (inv_reach hreach (inv_init cfg M W g0 hinit))
      hstopped).1,
   (exactly_once_main hW hmax (inv_reach hreach (inv_init cfg M W g0 hinit))
      hstopped).2.1⟩

/-- C6 counterexample: the sender loop of `TestContendingSenders` does not
stop once it has seen 10 consecutive cycles reporting zero: after exactly
10 consecutive empty cycles `noneFetched = 10` and the exit test
`noneFetched > 10` is still false; only an 11th consecutive empty cycle
makes it exit. -/
theorem contending_senders_stop_rule_counterexample :
    noneFetchedAfter (List.replicate 10 0) = 10 ∧
      senderStops (noneFetchedAfter (List.replicate 10 0)) = false ∧
      senderStops (noneFetchedAfter (List.replicate 11 0)) = true := by
  decide

/-- C6 amended: 10 generators enqueue 20 messages each (200 total); the 10
workers run cycles until each has seen more than 10 — that is, 11 —
consecutive cycles in which `ScanAndSend` reports zero messages sent or
failed (the loop exits on `noneFetched > 10`, a rule built into the
`stop` action of the model), and then the total count accumulated across
the whole run, successes plus failures exactly as the test's `count` sums
them, equals 200, all of it from successes. -/
theorem contending_senders_exact_total (cfg : Config) (g0 g : GState)
    (hmax : 0 < cfg.maxAttempts) (hinit : IsInitial 200 10 g0)
    (hreach : Reach cfg false g0 g)
    (hstopped : ∀ ws ∈ g.workers, ws.stopped = true) :
    sentCount g.store = 200 ∧ totalSuccesses g + totalFailures g = 200 := by
  obtain ⟨h1, h2, h3⟩ :=
    @exactly_once_main cfg 200 10 g (by omega) hmax
      (inv_reach hreach (inv_init cfg 200 10 g0 hinit)) hstopped
  exact ⟨h1, by omega⟩

/-! ## Frame properties of individual records -/

/-- Helper: a record that is ineligible, unlocked, and in no worker's
claimed list is left completely untouched by any atomic action (even with
a failing transport), and stays out of every claimed list. -/
theorem record_frozen_step {cfg : Config} {fa : Bool} {g g2 : GState}
    {i : Nat} (hstep : SenderStep cfg fa g g2) (hi : i < g.store.length)
    (hnotelig : eligible cfg (g.store[i]) = false)
    (hnc : ∀ (w : Nat) (hw : w < g.workers.length),
      i ∉ (g.workers[w]).claimed) :
    ∃ hi2 : i < g2.store.length,
      g2.store[i] = g.store[i] ∧
      ∀ (w : Nat) (hw : w < g2.workers.length),
        i ∉ (g2.workers[w]).claimed := by
  cases hstep with
  | claimOne w j hw hj hrun hroom helig =>
    have hji : j ≠ i := by
      intro hEq
      subst hEq
      exact Bool.noConfusion (hnotelig.symm.trans helig)
    refine ⟨by simpa using hi, ?_, ?_⟩
    · simp only [List.getElem_set_ne hji]
    · intro w3 hw3'
      have hw3 : w3 < g.workers.length := by simpa using hw3'
      by_cases hww : w3 = w
      · subst hww
        simp only [List.getElem_set_self]
        intro hmem
        rcases List.mem_cons.1 hmem with hEq | hmem2
        · exact hji hEq.symm
        · exact hnc w3 hw3 hmem2
      · simp only [List.getElem_set_ne (Ne.symm hww)]
        exact hnc w3 hw3
  | sendOk w j rest hw hj hrun hcl =>
    have hmemj : i ∉ (g.workers[w]).claimed := hnc w hw
    rw [hcl] at hmemj
    have hji : j ≠ i := by
      intro hEq
      exact hmemj (hEq ▸ List.mem_cons_self _ _)
    have hirest : i ∉ rest := fun h2 => hmemj (List.mem_cons_of_mem _ h2)
    refine ⟨by simpa using hi, ?_, ?_⟩
    · simp only [List.getElem_set_ne hji]
    · intro w3 hw3'
      have hw3 : w3 < g.workers.length := by simpa using hw3'
      by_cases hww : w3 = w
      · subst hww
        simp only [List.getElem_set_self]
        exact hirest
      · simp only [List.getElem_set_ne (Ne.symm hww)]
        exact hnc w3 hw3
  | sendFail w j rest hw hj hrun hcl hfail =>
    have hmemj : i ∉ (g.workers[w]).claimed := hnc w hw
    rw [hcl] at hmemj
    have hji : j ≠ i := by
      intro hEq
      exact hmemj (hEq ▸ List.mem_cons_self _ _)
    have hirest : i ∉ rest := fun h2 => hmemj (List.mem_cons_of_mem _ h2)
    refine ⟨by simpa using hi, ?_, ?_⟩
    · simp only [List.getElem_set_ne hji]
    · intro w3 hw3'
      have hw3 : w3 < g.workers.length := by simpa using hw3'
      by_cases hww : w3 = w
      · subst hww
        simp only [List.getElem_set_self]
        exact hirest
      · simp only [List.getElem_set_ne (Ne.symm hww)]
        exact hnc w3 hw3
  | observeEmpty w hw hrun hcl hno =>
    refine ⟨hi, rfl, ?_⟩
    intro w3 hw3'
    have hw3 : w3 < g.workers.length := by simpa using hw3'
    by_cases hww : w3 = w
    · subst hww
      simp only [List.getElem_set_self]
      exact hnc w3 hw3
    · simp only [List.getElem_set_ne (Ne.symm hww)]
      exact hnc w3 hw3
  | stop w hw hrun hcl hstreak =>
    refine ⟨hi, rfl, ?_⟩
    intro w3 hw3'
    have hw3 : w3 < g.workers.length := by simpa using hw3'
    by_cases hww : w3 = w
    · subst hww
      simp only [List.getElem_set_self]
      exact hnc w3 hw3
    · simp only [List.getElem_set_ne (Ne.symm hww)]
      exact hnc w3 hw3

/-- Modelled from the spec: the terminal permanently-failed state — the
record's `failedAttempts` sits at the ceiling, `sentAt` is unset, and it
is unclaimed (unlocked and in no worker's batch). -/
def AtCeiling (cfg : Config) (g : GState) (i : Nat) : Prop :=
  ∃ hi : i < g.store.length,
    (g.store[i]).sentAt = none ∧
    (g.store[i]).failedAttempts = cfg.maxAttempts ∧
    (g.store[i]).lockedBy = none ∧
    ∀ (w : Nat) (hw : w < g.workers.length), i ∉ (g.workers[w]).claimed

/-- C3: each failed delivery attempt strictly increments
`failedAttempts` (the failure write-back adds exactly one), and once a
record reaches the maximum-attempts ceiling it is never claimed again in
any further execution, however long and even with a failing transport:
`failedAttempts` stays equal to the ceiling and `sentAt` stays unset. -/
theorem retry_ceiling (cfg : Config) (g g2 : GState) (i : Nat)
    (hsteps : Relation.ReflTransGen (SenderStep cfg true) g g2)
    (hceil : AtCeiling cfg g i) :
    AtCeiling cfg g2 i ∧
      ∀ m : Msg, (markFailed m).failedAttempts = m.failedAttempts + 1 := by
  refine ⟨?_, fun m => rfl⟩
  induction hsteps with
  | refl => exact hceil
  | @tail gmid gnext hs hstep ih =>
    obtain ⟨hi, hs1, hs2, hs3, hs4⟩ := ih
    have hne : eligible cfg (gmid.store[i]) = false := by
      simp [eligible, hs2]
    obtain ⟨hi2, hEq, hnc2⟩ := record_frozen_step hstep hi hne hs4
    refine ⟨hi2, ?_, ?_, ?_, hnc2⟩
    · rw [hEq]
      exact hs1
    · rw [hEq]
      exact hs2
    · rw [hEq]
      exact hs3

/-- Witness for C3: a one-message store whose record sits at the ceiling
(3 failed attempts with maxAttempts = 3) after one further action of a
worker. -/
theorem retry_ceiling_witness :
    AtCeiling ⟨10, 3, 100, 50⟩
        ⟨[⟨"a", "s", "b", 0, none, 3, none, none⟩], [⟨[], 0, 0, 1, false⟩]⟩
        0 ∧
      ∀ m : Msg, (markFailed m).failedAttempts = m.failedAttempts + 1 :=
  retry_ceiling ⟨10, 3, 100, 50⟩
    ⟨[⟨"a", "s", "b", 0, none, 3, none, none⟩], [⟨[], 0, 0, 0, false⟩]⟩
    ⟨[⟨"a", "s", "b", 0, none, 3, none, none⟩], [⟨[], 0, 0, 1, false⟩]⟩ 0
    (Relation.ReflTransGen.single
      (SenderStep.observeEmpty _ 0 (by decide) (by decide) (by decide)
        (by
          intro m hm
          rw [List.mem_singleton] at hm
          subst hm
          decide)))
    ⟨by decide, rfl, rfl, rfl, by decide⟩

/-- Modelled from the spec: the stable sent state — `sentAt` holds the
fixed delivery time `t`, the record is unlocked and in no worker's
batch. -/
def SentStable (g : GState) (i t : Nat) : Prop :=
  ∃ hi : i < g.store.length,
    (g.store[i]).sentAt = some t ∧
    (g.store[i]).lockedBy = none ∧
    ∀ (w : Nat) (hw : w < g.workers.length), i ∉ (g.workers[w]).claimed

/-- C4: once a record has reached the sent state, no sequence of queue
operations (claims, deliveries, failures, stops) ever moves it back to
unclaimed-eligible or claimed: it stays unlocked and unclaimed, and its
`sentAt` value is never cleared or overwritten. -/
theorem sent_never_regresses (cfg : Config) (g g2 : GState) (i t : Nat)
    (hsteps : Relation.ReflTransGen (SenderStep cfg true) g g2)
    (hsent : SentStable g i t) : SentStable g2 i t := by
  induction hsteps with
  | refl => exact hsent
  | @tail gmid gnext hs hstep ih =>
    obtain ⟨hi, hs1, hs2, hs3⟩ := ih
    have hne : eligible cfg (gmid.store[i]) = false := by
      simp [eligible, hs1]
    obtain ⟨hi2, hEq, hnc2⟩ := record_frozen_step hstep hi hne hs3
    refine ⟨hi2, ?_, ?_, hnc2⟩
    · rw [hEq]
      exact hs1
    · rw [hEq]
      exact hs2

/-- Witness for C4: a record sent at time 7 stays exactly so across a
further action. -/
theorem sent_never_regresses_witness :
    SentStable
      ⟨[⟨"a", "s", "b", 0, some 7, 0, none, none⟩], [⟨[], 1, 0, 1, false⟩]⟩
      0 7 :=
  sent_never_regresses ⟨10, 3, 100, 50⟩
    ⟨[⟨"a", "s", "b", 0, some 7, 0, none, none⟩], [⟨[], 1, 0, 0, false⟩]⟩
    ⟨[⟨"a", "s", "b", 0, some 7, 0, none, none⟩], [⟨[], 1, 0, 1, false⟩]⟩ 0 7
    (Relation.ReflTransGen.single
      (SenderStep.observeEmpty _ 0 (by decide) (by decide) (by decide)
        (by
          intro m hm
          rw [List.mem_singleton] at hm
          subst hm
          decide)))
    ⟨by decide, rfl, rfl, by decide⟩

/-! ## Concrete terminating executions

The machinery below builds explicit schedules of the transition system,
used to instantiate the contention theorems on the test scenario. -/

/-- Helper: writing back the element already present changes nothing. -/
theorem set_getElem_self {α : Type} :
    ∀ (l : List α) (i : Nat) (h : i < l.length), l.set i (l[i]) = l := by
  intro l
  induction l with
  | nil =>
    intro i h
    simp at h
  | cons a rest ih =>
    intro i h
    cases i with
    | zero => rfl
    | succ n =>
      have hn : n < rest.length := by simpa using h
      simp only [List.getElem_cons_succ, List.set_cons_succ]
      rw [ih n hn]

/-- Helper: indexing just past a replicate prefix reads the head of the
suffix. -/
theorem getElem_rep_append {α : Type} (a : α) (j : Nat) (l : List α)
    (h0 : 0 < l.length)
    (h : j < (List.replicate j a ++ l).length) :
    (List.replicate j a ++ l)[j] = l[0] := by
  rw [List.getElem_append_right (by simp)]
  simp

/-- Helper: setting just past a replicate prefix updates the head of the
suffix. -/
theorem set_rep_append {α : Type} (a x : α) (j : Nat) (l : List α) :
    (List.replicate j a ++ l).set j x =
      List.replicate j a ++ l.set 0 x := by
  rw [List.set_append_right _ _ (by simp)]
  simp

/-- Helper: absorbing one more copy into a replicate prefix. -/
theorem rep_append_cons {α : Type} (a : α) (j : Nat) (l : List α) :
    List.replicate j a ++ (a :: l) = List.replicate (j + 1) a ++ l := by
  rw [List.replicate_succ', List.append_assoc]
  rfl

/-- The canonical freshly-enqueued test message (one recipient address, as
in `TestContendingSenders`). -/
def msg0 : Msg :=
  ⟨"TestContendingSenders@siasky.net", "s", "b", 0, none, 0, none, none⟩

/-- The test message after successful delivery at the run's instant. -/
def sentMsg (cfg : Config) : Msg :=
  { msg0 with sentAt := some cfg.now }

/-- Intermediate state of the draining schedule: the first `j` of `M`
messages are sent, worker 0 has delivered all of them, and the remaining
workers `rest` have done nothing yet. -/
def drainState (cfg : Config) (M j : Nat) (rest : List WState) : GState :=
  ⟨List.replicate j (sentMsg cfg) ++ List.replicate (M - j) msg0,
   ⟨[], j, 0, 0, false⟩ :: rest⟩

/-- A claim step stated with the read values supplied as equations, so
that concrete schedules can discharge them by evaluation. -/
theorem claim_single (cfg : Config) (fa : Bool) (store : List Msg)
    (workers : List WState) (w i : Nat) (m : Msg) (ws : WState)
    (hw : w < workers.length) (hi : i < store.length)
    (hgetm : store[i] = m) (hgetw : workers[w] = ws)
    (hrun : ws.stopped = false) (hroom : ws.claimed.length < cfg.batchSize)
    (helig : eligible cfg m = true) :
    SenderStep cfg fa ⟨store, workers⟩
      ⟨store.set i (lockMsg w cfg.now m),
       workers.set w
         { ws with claimed := i :: ws.claimed, emptyStreak := 0 }⟩ := by
  have s2 : SenderStep cfg fa ⟨store, workers⟩
      ⟨store.set i (lockMsg w cfg.now (store[i])),
       workers.set w
         { workers[w] with
             claimed := i :: (workers[w]).claimed, emptyStreak := 0 }⟩ :=
    SenderStep.claimOne ⟨store, workers⟩ w i hw hi (hgetw.symm ▸ hrun)
      (hgetw.symm ▸ hroom) (hgetm.symm ▸ helig)
  rw [hgetm, hgetw] at s2
  exact s2

/-- A successful-delivery step with the read values supplied as
equations. -/
theorem sendOk_single (cfg : Config) (fa : Bool) (store : List Msg)
    (workers : List WState) (w i : Nat) (m : Msg) (ws : WState)
    (rest : List Nat) (hw : w < workers.length) (hi : i < store.length)
    (hgetm : store[i] = m) (hgetw : workers[w] = ws)
    (hrun : ws.stopped = false) (hcl : ws.claimed = i :: rest) :
    SenderStep cfg fa ⟨store, workers⟩
      ⟨store.set i (markSent cfg.now m),
       workers.set w
         { ws with claimed := rest, successes := ws.successes + 1 }⟩ := by
  have s2 : SenderStep cfg fa ⟨store, workers⟩
      ⟨store.set i (markSent cfg.now (store[i])),
       workers.set w
         { workers[w] with
             claimed := rest, successes := (workers[w]).successes + 1 }⟩ :=
    SenderStep.sendOk ⟨store, workers⟩ w i rest hw hi (hgetw.symm ▸ hrun)
      (hgetw.symm ▸ hcl)
  rw [hgetm, hgetw] at s2
  exact s2

/-- An empty-cycle step with the read values supplied as equations. -/
theorem observe_single (cfg : Config) (fa : Bool) (store : List Msg)
    (workers : List WState) (w : Nat) (ws : WState)
    (hw : w < workers.length) (hgetw : workers[w] = ws)
    (hrun : ws.stopped = false) (hcl : ws.claimed = [])
    (hno : noEligible cfg store) :
    SenderStep cfg fa ⟨store, workers⟩
      ⟨store,
       workers.set w
         { ws with emptyStreak := ws.emptyStreak + 1 }⟩ := by
  have s2 : SenderStep cfg fa ⟨store, workers⟩
      ⟨store,
       workers.set w
         { workers[w] with
             emptyStreak := (workers[w]).emptyStreak + 1 }⟩ :=
    SenderStep.observeEmpty ⟨store, workers⟩ w hw (hgetw.symm ▸ hrun)
      (hgetw.symm ▸ hcl) hno
  rw [hgetw] at s2
  exact s2

/-- A loop-exit step with the read values supplied as equations. -/
theorem stop_single (cfg : Config) (fa : Bool) (store : List Msg)
    (workers : List WState) (w : Nat) (ws : WState)
    (hw : w < workers.length) (hgetw : workers[w] = ws)
    (hrun : ws.stopped = false) (hcl : ws.claimed = [])
    (hstreak : 10 < ws.emptyStreak) :
    SenderStep cfg fa ⟨store, workers⟩
      ⟨store, workers.set w { ws with stopped := true }⟩ := by
  have s2 : SenderStep cfg fa ⟨store, workers⟩
      ⟨store, workers.set w { workers[w] with stopped := true }⟩ :=
    SenderStep.stop ⟨store, workers⟩ w hw (hgetw.symm ▸ hrun)
      (hgetw.symm ▸ hcl) (hgetw.symm ▸ hstreak)
  rw [hgetw] at s2
  exact s2

/-- A worker that owns nothing can run `n` consecutive empty cycles over a
drained store, accumulating its `noneFetched` streak. -/
theorem observe_many (cfg : Config) (fa : Bool) (store : List Msg)
    (workers : List WState) (w : Nat) (ws : WState)
    (hw : w < workers.length) (hgetw : workers[w] = ws)
    (hrun : ws.stopped = false) (hcl : ws.claimed = [])
    (hno : noEligible cfg store) :
    ∀ n : Nat,
      Reach cfg fa ⟨store, workers⟩
        ⟨store,
         workers.set w { ws with emptyStreak := ws.emptyStreak + n }⟩ := by
  intro n
  induction n with
  | zero =>
    have h0 : workers.set w { ws with emptyStreak := ws.emptyStreak + 0 }
        = workers := by
      have h1 : { ws with emptyStreak := ws.emptyStreak + 0 } = ws := rfl
      rw [h1, ← hgetw, set_getElem_self]
    rw [h0]
    exact Relation.ReflTransGen.refl
  | succ n ih =>
    refine Relation.ReflTransGen.tail ih ?_
    have hw2 : w < (workers.set w
        { ws with emptyStreak := ws.emptyStreak + n }).length := by
      simpa using hw
    have s := observe_single cfg fa store
      (workers.set w { ws with emptyStreak := ws.emptyStreak + n }) w
      { ws with emptyStreak := ws.emptyStreak + n } hw2
      (List.getElem_set_self hw2) hrun hcl hno
    have e : (workers.set w
          { ws with emptyStreak := ws.emptyStreak + n }).set w
        { { ws with emptyStreak := ws.emptyStreak + n } with
            emptyStreak :=
              ({ ws with emptyStreak := ws.emptyStreak + n }).emptyStreak
                + 1 }
        = workers.set w { ws with emptyStreak := ws.emptyStreak + (n + 1) } := by
      rw [List.set_set]
      rfl
    rw [e] at s
    exact s

/-- Helper: the fresh test message is eligible whenever the attempt
ceiling is positive. -/
theorem eligible_msg0 (cfg : Config) (hmax : 0 < cfg.maxAttempts) :
    eligible cfg msg0 = true := by
  simp [eligible, msg0]
  exact hmax

/-- One claim-then-deliver round of worker 0 over the draining
schedule. -/
theorem drain_step (cfg : Config) (M j : Nat) (rest : List WState)
    (hbatch : 0 < cfg.batchSize) (hmax : 0 < cfg.maxAttempts)
    (hj : j < M) :
    Reach cfg false (drainState cfg M j rest)
      (drainState cfg M (j + 1) rest) := by
  have s1 := claim_single cfg false
    (List.replicate j (sentMsg cfg) ++ List.replicate (M - j) msg0)
    (⟨[], j, 0, 0, false⟩ :: rest) 0 j msg0 ⟨[], j, 0, 0, false⟩
    (by simp) (by simp; omega)
    (by
      rw [getElem_rep_append _ _ _ (by simp; omega)]
      simp)
    rfl rfl hbatch (eligible_msg0 cfg hmax)
  have hset1 : (List.replicate j (sentMsg cfg) ++
        List.replicate (M - j) msg0).set j (lockMsg 0 cfg.now msg0)
      = List.replicate j (sentMsg cfg) ++
          (lockMsg 0 cfg.now msg0 :: List.replicate (M - j - 1) msg0) := by
    rw [set_rep_append]
    congr 1
    have hMj : M - j = (M - j - 1) + 1 := by omega
    rw [hMj, List.replicate_succ]
    rfl
  rw [hset1] at s1
  have s2 := sendOk_single cfg false
    (List.replicate j (sentMsg cfg) ++
      (lockMsg 0 cfg.now msg0 :: List.replicate (M - j - 1) msg0))
    (⟨[j], j, 0, 0, false⟩ :: rest) 0 j (lockMsg 0 cfg.now msg0)
    ⟨[j], j, 0, 0, false⟩ []
    (by simp) (by simp)
    (by
      rw [getElem_rep_append _ _ _ (by simp)]
      rfl)
    rfl rfl rfl
  have hset2 : (List.replicate j (sentMsg cfg) ++
        (lockMsg 0 cfg.now msg0 :: List.replicate (M - j - 1) msg0)).set j
          (markSent cfg.now (lockMsg 0 cfg.now msg0))
      = List.replicate (j + 1) (sentMsg cfg) ++
          List.replicate (M - (j + 1)) msg0 := by
    rw [set_rep_append, List.set_cons_zero]
    have hms : markSent cfg.now (lockMsg 0 cfg.now msg0) = sentMsg cfg := rfl
    have hn : M - j - 1 = M - (j + 1) := by omega
    rw [hms, rep_append_cons, hn]
  rw [hset2] at s2
  exact Relation.ReflTransGen.head s1 (Relation.ReflTransGen.single s2)

/-- Worker 0 can single-handedly drain the whole store. -/
theorem drain_reach (cfg : Config) (M : Nat) (rest : List WState)
    (hbatch : 0 < cfg.batchSize) (hmax : 0 < cfg.maxAttempts) :
    ∀ (k j : Nat), j + k = M →
      Reach cfg false (drainState cfg M j rest)
        (drainState cfg M M rest) := by
  intro k
  induction k with
  | zero =>
    intro j hjk
    have hj : j = M := by omega
    subst hj
    exact Relation.ReflTransGen.refl
  | succ n ih =>
    intro j hjk
    exact Relation.ReflTransGen.trans
      (drain_step cfg M j rest hbatch hmax (by omega))
      (ih (j + 1) (by omega))

/-- A fully drained store has no eligible record left. -/
theorem noEligible_drained (cfg : Config) (M : Nat) (rest : List WState) :
    noEligible cfg ((drainState cfg M M rest).store) := by
  intro m hm
  have hm2 : m ∈ List.replicate M (sentMsg cfg) ++
      List.replicate (M - M) msg0 := hm
  rw [Nat.sub_self] at hm2
  simp at hm2
  obtain ⟨-, hmeq⟩ := hm2
  subst hmeq
  simp [eligible, sentMsg, msg0]

/-- A worker over a drained store runs 11 consecutive empty cycles —
pushing its `noneFetched` counter past 10 — and then exits its loop. -/
theorem finish_worker (cfg : Config) (fa : Bool) (store : List Msg)
    (workers : List WState) (w : Nat) (ws : WState)
    (hw : w < workers.length) (hgetw : workers[w] = ws)
    (hrun : ws.stopped = false) (hcl : ws.claimed = [])
    (hno : noEligible cfg store) :
    Reach cfg fa ⟨store, workers⟩
      ⟨store,
       workers.set w
         { ws with emptyStreak := ws.emptyStreak + 11,
                   stopped := true }⟩ := by
  refine Relation.ReflTransGen.trans
    (observe_many cfg fa store workers w ws hw hgetw hrun hcl hno 11) ?_
  refine Relation.ReflTransGen.single ?_
  have hw2 : w < (workers.set w
      { ws with emptyStreak := ws.emptyStreak + 11 }).length := by
    simpa using hw
  have s := stop_single cfg fa store
    (workers.set w { ws with emptyStreak := ws.emptyStreak + 11 }) w
    { ws with emptyStreak := ws.emptyStreak + 11 } hw2
    (List.getElem_set_self hw2) hrun hcl (by simp)
  have e : (workers.set w
        { ws with emptyStreak := ws.emptyStreak + 11 }).set w
      { { ws with emptyStreak := ws.emptyStreak + 11 } with stopped := true }
      = workers.set w
          { ws with emptyStreak := ws.emptyStreak + 11, stopped := true } := by
    rw [List.set_set]
  rw [e] at s
  exact s

/-- Witness for C1 on the smallest contention instance: one worker drains
a one-message store, observes 11 empty cycles, stops; the final state has
one sent record and a success total of one. -/
theorem exactly_once_under_contention_witness :
    sentCount (List.replicate 1 (sentMsg ⟨1, 3, 5, 9⟩) ++
        List.replicate 0 msg0) = 1 ∧
      totalSuccesses
        ⟨List.replicate 1 (sentMsg ⟨1, 3, 5, 9⟩) ++ List.replicate 0 msg0,
         [⟨[], 1, 0, 11, true⟩]⟩ = 1 := by
  refine exactly_once_under_contention ⟨1, 3, 5, 9⟩ 1 1
    (drainState ⟨1, 3, 5, 9⟩ 1 0 [])
    ⟨List.replicate 1 (sentMsg ⟨1, 3, 5, 9⟩) ++ List.replicate 0 msg0,
     [⟨[], 1, 0, 11, true⟩]⟩
    (by decide) (by decide) ⟨by decide, by decide, rfl⟩ ?_ (by decide)
  refine Relation.ReflTransGen.trans
    (drain_reach ⟨1, 3, 5, 9⟩ 1 [] (by decide) (by decide) 1 0 (by decide))
    ?_
  refine Relation.ReflTransGen.trans
    (finish_worker ⟨1, 3, 5, 9⟩ false _ _ 0 _ (by decide) rfl (by decide)
      (by decide) (noEligible_drained ⟨1, 3, 5, 9⟩ 1 [])) ?_
  exact Relation.ReflTransGen.refl

/-- Witness for the amended C6 on the test's own numbers: 200 messages to
one recipient, 10 workers; worker 0 drains the queue, then every worker
sees 11 consecutive empty cycles and exits; the run's total count is
exactly 200. -/
theorem contending_senders_exact_total_witness :
    sentCount (List.replicate 200 (sentMsg ⟨10, 3, 3600, 7⟩) ++
        List.replicate 0 msg0) = 200 ∧
      totalSuccesses
          ⟨List.replicate 200 (sentMsg ⟨10, 3, 3600, 7⟩) ++
              List.replicate 0 msg0,
           ⟨[], 200, 0, 11, true⟩ ::
             List.replicate 9 ⟨[], 0, 0, 11, true⟩⟩ +
        totalFailures
          ⟨List.replicate 200 (sentMsg ⟨10, 3, 3600, 7⟩) ++
              List.replicate 0 msg0,
           ⟨[], 200, 0, 11, true⟩ ::
             List.replicate 9 ⟨[], 0, 0, 11, true⟩⟩ = 200 := by
  refine contending_senders_exact_total ⟨10, 3, 3600, 7⟩
    (drainState ⟨10, 3, 3600, 7⟩ 200 0
      (List.replicate 9 ⟨[], 0, 0, 0, false⟩))
    ⟨List.replicate 200 (sentMsg ⟨10, 3, 3600, 7⟩) ++ List.replicate 0 msg0,
     ⟨[], 200, 0, 11, true⟩ :: List.replicate 9 ⟨[], 0, 0, 11, true⟩⟩
    (by decide) ⟨by simp [drainState], ?_, rfl⟩ ?_ (by decide)
  · intro m hm
    have hm2 : m ∈ List.replicate 200 msg0 := by
      simpa [drainState] using hm
    rw [List.eq_of_mem_replicate hm2]
    exact ⟨rfl, rfl, rfl⟩
  · refine Relation.ReflTransGen.trans
      (drain_reach ⟨10, 3, 3600, 7⟩ 200
        (List.replicate 9 ⟨[], 0, 0, 0, false⟩)
        (by decide) (by decide) 200 0 (by decide)) ?_
    refine Relation.ReflTransGen.trans
      (finish_worker ⟨10, 3, 3600, 7⟩ false _ _ 0 _ (by decide) rfl
        (by decide) (by decide)
        (noEligible_drained ⟨10, 3, 3600, 7⟩ 200
          (List.replicate 9 ⟨[], 0, 0, 0, false⟩))) ?_
    refine Relation.ReflTransGen.trans
      (finish_worker ⟨10, 3, 3600, 7⟩ false _ _ 1 _ (by decide) rfl
        (by decide) (by decide)
        (noEligible_drained ⟨10, 3, 3600, 7⟩ 200
          (List.replicate 9 ⟨[], 0, 0, 0, false⟩))) ?_
    refine Relation.ReflTransGen.trans
      (finish_worker ⟨10, 3, 3600, 7⟩ false _ _ 2 _ (by decide) rfl
        (by decide) (by decide)
        (noEligible_drained ⟨10, 3, 3600, 7⟩ 200
          (List.replicate 9 ⟨[], 0, 0, 0, false⟩))) ?_
    refine Relation.ReflTransGen.trans
      (finish_worker ⟨10, 3, 3600, 7⟩ false _ _ 3 _ (by decide) rfl
        (by decide) (by decide)
        (noEligible_drained ⟨10, 3, 3600, 7⟩ 200
          (List.replicate 9 ⟨[], 0, 0, 0, false⟩))) ?_
    refine Relation.ReflTransGen.trans
      (finish_worker ⟨10, 3, 3600, 7⟩ false _ _ 4 _ (by decide) rfl
        (by decide) (by decide)
        (noEligible_drained ⟨10, 3, 3600, 7⟩ 200
          (List.replicate 9 ⟨[], 0, 0, 0, false⟩))) ?_
    refine Relation.ReflTransGen.trans
      (finish_worker ⟨10, 3, 3600, 7⟩ false _ _ 5 _ (by decide) rfl
        (by decide) (by decide)
        (noEligible_drained ⟨10, 3, 3600, 7⟩ 200
          (List.replicate 9 ⟨[], 0, 0, 0, false⟩))) ?_
    refine Relation.ReflTransGen.trans
      (finish_worker ⟨10, 3, 3600, 7⟩ false _ _ 6 _ (by decide) rfl
        (by decide) (by decide)
        (noEligible_drained ⟨10, 3, 3600, 7⟩ 200
          (List.replicate 9 ⟨[], 0, 0, 0, false⟩))) ?_
    refine Relation.ReflTransGen.trans
      (finish_worker ⟨10, 3, 3600, 7⟩ false _ _ 7 _ (by decide) rfl
        (by decide) (by decide)
        (noEligible_drained ⟨10, 3, 3600, 7⟩ 200
          (List.replicate 9 ⟨[], 0, 0, 0, false⟩))) ?_
    refine Relation.ReflTransGen.trans
      (finish_worker ⟨10, 3, 3600, 7⟩ false _ _ 8 _ (by decide) rfl
        (by decide) (by decide)
        (noEligible_drained ⟨10, 3, 3600, 7⟩ 200
          (List.replicate 9 ⟨[], 0, 0, 0, false⟩))) ?_
    refine Relation.ReflTransGen.trans
      (finish_worker ⟨10, 3, 3600, 7⟩ false _ _ 9 _ (by decide) rfl
        (by decide) (by decide)
        (noEligible_drained ⟨10, 3, 3600, 7⟩ 200
          (List.replicate 9 ⟨[], 0, 0, 0, false⟩))) ?_
    exact Relation.ReflTransGen.refl

end SkynetAccounts
